import Mathlib

/-!
Shallow embedding of the `sync` pipeline of the agent-skills-standard CLI
(`src/cli/src/commands/sync.ts`, constants from `src/constants.ts`,
configuration shape from `src/cli/src/models/config.ts`), together with
proofs of the specified properties of the Version Reconciler, Skill
Assembler and Target Writer.

Modelling conventions:
* JavaScript `string | undefined` fields become `Option String`; JS
  truthiness of such a field (`!x`) is `strTruthy` (absent or empty is
  falsy).
* Optional array fields (`include`, `exclude`, `custom_overrides`,
  `agents`) become `Option (List String)`; note that in JS an *empty
  array is truthy*, so `xs || d` falls back to `d` only when the field
  is absent — this is modelled exactly.
* The network is an oracle: the tree endpoint and the raw-file endpoint
  are functions from URL to `Option` result (`none` = non-ok response).
* The filesystem is `String → Option String` (path to file content).
* `include`/`exclude` are Lean keywords, so the corresponding record
  fields are named `incl`/`excl`; `tag_prefix` is named `tagPre`.
-/

namespace AgentSkills

/-- A GitHub tree entry (`GitHubTreeItem`): `{path, type}` where `type`
is `"blob"` for files and `"tree"` for directories. -/
structure TreeItem where
  path : String
  type : String
deriving DecidableEq, Repr

/-- `CollectedSkill` from sync.ts: category, skill-folder name, and the
fetched files as (relative name, content) pairs. -/
structure CollectedSkill where
  category : String
  skill : String
  files : List (String × String)
deriving DecidableEq, Repr

/-- Per-category configuration from `SkillConfig.skills` values:
`{enabled, ref?, include?, exclude?}` (fields `incl`/`excl` stand for
the TS `include`/`exclude`, which are Lean keywords). -/
structure CatConfig where
  enabled : Bool
  ref : Option String
  incl : Option (List String)
  excl : Option (List String)
deriving DecidableEq, Repr

/-- Remote per-category metadata `{version?, tag_prefix?}` from
`skills/metadata.json` (`tagPre` stands for `tag_prefix`). -/
structure RemoteCat where
  version : Option String
  tagPre : Option String
deriving DecidableEq, Repr

/-- The `.skillsrc` configuration (`SkillConfig` in models/config.ts).
`skills` is the ordered list of entries of the JS object (keys unique);
`agents` and `custom_overrides` are `Option` since the YAML document may
omit them (the TS types are plain arrays, but the code guards them with
`||`, which only matters for absent values). -/
structure SkillConfig where
  registry : String
  agents : Option (List String)
  skills : List (String × CatConfig)
  custom_overrides : Option (List String)
deriving DecidableEq, Repr

/-- An entry of `SUPPORTED_AGENTS` from src/constants.ts (the
`detectionFiles` field is not used by sync and is omitted). -/
structure AgentDef where
  id : String
  name : String
  path : String
deriving DecidableEq, Repr

/-- `SUPPORTED_AGENTS` from src/constants.ts: one definition per member
of the `Agent` enum, in enum order. -/
def SUPPORTED_AGENTS : List AgentDef :=
  [ ⟨"cursor", "Cursor", ".cursor/skills"⟩,
    ⟨"trae", "Trae", ".trae/skills"⟩,
    ⟨"claude", "Claude Code", ".claude/skills"⟩,
    ⟨"copilot", "GitHub Copilot", ".github/skills"⟩,
    ⟨"antigravity", "Antigravity", ".agent/skills"⟩,
    ⟨"openai", "OpenAI", ".codex/skills"⟩,
    ⟨"opencode", "OpenCode", ".opencode/skills"⟩,
    ⟨"gemini", "Gemini", ".gemini/skills"⟩,
    ⟨"roo", "Roo Code", ".roo/skills"⟩ ]

/-- JS truthiness of a `string | undefined` value: `undefined` and the
empty string are falsy. -/
def strTruthy : Option String → Bool
  | none => false
  | some s => !s.isEmpty

/-- `catConfig.ref || 'main'`: the effective ref of a category. -/
def refOrMain : Option String → String
  | none => "main"
  | some r => if r.isEmpty then "main" else r

/-! ### Character-list string primitives

The TS code uses `startsWith`, `endsWith`, `split('/')` and a global
character replace.  These are implemented here on the underlying
character lists (`String.data`), which is extensionally the same
operation and keeps every definition evaluable by the kernel. -/

/-- `s.startsWith(pre)`. -/
def sStartsWith (s pre : String) : Bool :=
  pre.data.isPrefixOf s.data

/-- `s.endsWith(suf)`. -/
def sEndsWith (s suf : String) : Bool :=
  suf.data.isSuffixOf s.data

/-- `split('/')` on a character list: maximal runs between slashes,
with empty runs preserved (so `splitSlash "a//b".data` has an empty
middle group and `splitSlash "".data = [[]]`). -/
def splitSlash : List Char → List (List Char)
  | [] => [[]]
  | c :: cs =>
    match splitSlash cs with
    | [] => [[]]
    | g :: gs => if c = '/' then [] :: g :: gs else (c :: g) :: gs

/-- `path.split('/')` as strings. -/
def slashSegments (s : String) : List String :=
  (splitSlash s.data).map String.mk

/-! ### The two registry-locator parses

`checkForUpdates` uses `/github\.com\/([^\/]+)\/([^\/.]+)(?:\.git)?/i`
and `assembleFromRemote` uses `/github\.com\/([^\/]+)\/([^\/]+)/i`.
Both are modelled with JS `String.prototype.match` semantics: the match
is attempted at each index from the left, and the first index at which
the whole pattern matches wins.  Inside one attempt the quantifiers are
greedy; backtracking never changes the captures here because each
`[^x]+` run is followed either by a literal that cannot occur inside the
run or by an optional group / the end of the pattern.  The trailing
`(?:\.git)?` group is optional and captures nothing, so it affects
neither match existence nor the captured groups and is not modelled. -/

/-- Case-insensitive literal-pattern strip: if `s` starts with `pat` up
to `Char.toLower`, return the remainder of `s`. -/
def stripCi : List Char → List Char → Option (List Char)
  | [], s => some s
  | _ :: _, [] => none
  | p :: ps, c :: cs => if c.toLower = p.toLower then stripCi ps cs else none

/-- One match attempt of the assembler's pattern
`github\.com\/([^\/]+)\/([^\/]+)` at the head of `cs`, returning the
two captures. -/
def matchSyncAt (cs : List Char) : Option (String × String) :=
  match stripCi "github.com/".data cs with
  | none => none
  | some rest =>
    let owner := rest.takeWhile (fun c => c ≠ '/')
    if owner.isEmpty then none
    else
      match rest.dropWhile (fun c => c ≠ '/') with
      | [] => none
      | _ :: rest2 =>
        let repo := rest2.takeWhile (fun c => c ≠ '/')
        if repo.isEmpty then none else some (String.mk owner, String.mk repo)

/-- One match attempt of the reconciler's pattern
`github\.com\/([^\/]+)\/([^\/.]+)(?:\.git)?` at the head of `cs`. -/
def matchUpdAt (cs : List Char) : Option (String × String) :=
  match stripCi "github.com/".data cs with
  | none => none
  | some rest =>
    let owner := rest.takeWhile (fun c => c ≠ '/')
    if owner.isEmpty then none
    else
      match rest.dropWhile (fun c => c ≠ '/') with
      | [] => none
      | _ :: rest2 =>
        let repo := rest2.takeWhile (fun c => c ≠ '/' && c ≠ '.')
        if repo.isEmpty then none else some (String.mk owner, String.mk repo)

/-- Leftmost-match scan: try the single-position matcher at every index
from the left, returning the first success. -/
def scanFrom (f : List Char → Option (String × String)) :
    List Char → Option (String × String)
  | [] => none
  | c :: cs =>
    match f (c :: cs) with
    | some r => some r
    | none => scanFrom f cs

/-- The assembler's owner/repo extraction from `config.registry`
(sync.ts line 209): `registry.match(/github\.com\/([^\/]+)\/([^\/]+)/i)`
and the two captures. `none` models a failed match, after which the
assembler returns `[]`. -/
def ghParseSync (s : String) : Option (String × String) :=
  scanFrom matchSyncAt s.data

/-- The reconciler's owner/repo extraction from `config.registry`
(sync.ts lines 111-118):
`registry.match(/github\.com\/([^\/]+)\/([^\/.]+)(?:\.git)?/i)`.
`none` models a failed match, after which reconciliation is skipped. -/
def ghParseUpd (s : String) : Option (String × String) :=
  scanFrom matchUpdAt s.data

/-! ### Version Reconciler (`checkForUpdates`, sync.ts lines 107-199) -/

/-- One proposed update `{category, from, to}` (sync.ts line 137). -/
structure Update where
  category : String
  from_ : String
  to_ : String
deriving DecidableEq, Repr

/-- `tag_prefix + version` for a category's remote metadata (sync.ts
line 145); only meaningful when both fields are truthy. -/
def latestTag (rc : RemoteCat) : String :=
  rc.tagPre.getD "" ++ rc.version.getD ""

/-- The update candidates computed by the loop at sync.ts lines 139-156:
for every enabled category, if the remote metadata has truthy `version`
and `tag_prefix` and the effective ref differs from
`tag_prefix + version`, push `{category, currentRef, latestTag}`. -/
def computeUpdates (skills : List (String × CatConfig))
    (meta : String → Option RemoteCat) : List Update :=
  skills.filterMap fun p =>
    if !p.2.enabled then none
    else
      match meta p.1 with
      | none => none
      | some rc =>
        if !strTruthy rc.version || !strTruthy rc.tagPre then none
        else
          let currentRef := refOrMain p.2.ref
          if currentRef ≠ latestTag rc then
            some ⟨p.1, currentRef, latestTag rc⟩
          else none

/-- `config.skills[cat].ref = to` (sync.ts line 180) on the entry list. -/
def setRef (skills : List (String × CatConfig)) (cat newRef : String) :
    List (String × CatConfig) :=
  skills.map fun p => if p.1 = cat then (p.1, { p.2 with ref := some newRef }) else p

/-- `checkForUpdates` as a configuration transformer.  `meta` is the
outcome of the two network calls (repository lookup + raw fetch of
`skills/metadata.json`): `none` when either was not ok, in which case
the function returns the configuration unchanged; `updateAll` is the
user's answer to the single confirmation prompt (only consulted when at
least one candidate exists).  Returns the configuration `sync` proceeds
with (which is also what is persisted back to `.skillsrc` when updates
are accepted). -/
def checkForUpdates (cfg : SkillConfig)
    (meta : Option (String → Option RemoteCat)) (updateAll : Bool) :
    SkillConfig :=
  match ghParseUpd cfg.registry with
  | none => cfg
  | some _ =>
    match meta with
    | none => cfg
    | some m =>
      let updates := computeUpdates cfg.skills m
      if updates.isEmpty then cfg
      else if updateAll then
        { cfg with
          skills := updates.foldl (fun sk u => setRef sk u.category u.to_) cfg.skills }
      else cfg

/-! ### Skill Assembler (`assembleFromRemote`, sync.ts lines 201-333) -/

/-- The include/exclude filter at sync.ts lines 267-276: with a present
`include` list, a name not in it is skipped; then with a present
`exclude` list, a name in it is skipped.  (In JS an empty array is
truthy, so a present-but-empty `include` filters everything out.) -/
def skillSurvives (cc : CatConfig) (name : String) : Bool :=
  if (match cc.incl with
      | some l => !l.contains name
      | none => false) then false
  else if (match cc.excl with
      | some l => l.contains name
      | none => false) then false
  else true

/-- Insertion-ordered deduplication, as `Array.from(new Set(xs))`. -/
def firstDedup (l : List String) : List String :=
  l.foldl (fun acc x => if acc.contains x then acc else acc ++ [x]) []

/-- The distinct skill-folder names of a category (sync.ts lines
252-264): third `/`-segment of every tree path starting with
`skills/{category}/`, dropping empty/missing segments
(`.filter(Boolean)`), deduplicated in first-seen order. -/
def skillFolders (allFiles : List TreeItem) (category : String) :
    List String :=
  firstDedup <|
    (allFiles.filterMap fun f =>
      if sStartsWith f.path ("skills/" ++ category ++ "/") then
        (slashSegments f.path).get? 2
      else none).filter (fun s => !s.isEmpty)

/-- `skills/{category}/{skill}/`, the path root of one skill folder. -/
def skillRoot (category skill : String) : String :=
  "skills/" ++ category ++ "/" ++ skill ++ "/"

/-- `fileItem.path.replace(skillRoot, '')` (sync.ts lines 287-290): JS
`replace` with a string pattern replaces the first occurrence; every
path it is applied to has been filtered to start with `skillRoot`, so
the first occurrence is the leading one and the result is the path with
that lead removed. -/
def relWithin (root p : String) : String :=
  p.drop root.length

/-- The content-shape test of sync.ts lines 293-297: the path relative
to the skill folder is `SKILL.md` or lives under `references/`,
`scripts/` or `assets/`. -/
def isSupportedRel (rel : String) : Bool :=
  rel == "SKILL.md" || sStartsWith rel "references/" ||
    sStartsWith rel "scripts/" || sStartsWith rel "assets/"

/-- `https://raw.githubusercontent.com/{owner}/{repo}/{ref}/skills/`
(sync.ts line 226). -/
def rawBaseUrl (owner repo ref : String) : String :=
  "https://raw.githubusercontent.com/" ++ owner ++ "/" ++ repo ++ "/" ++
    ref ++ "/skills/"

/-- `https://api.github.com/repos/{owner}/{repo}/git/trees/{ref}?recursive=1`
(sync.ts line 227). -/
def treeUrl (owner repo ref : String) : String :=
  "https://api.github.com/repos/" ++ owner ++ "/" ++ repo ++
    "/git/trees/" ++ ref ++ "?recursive=1"

/-- `${rawBaseUrl}${category}/{skill}/{rel}` (sync.ts line 300). -/
def fileUrl (base category skill rel : String) : String :=
  base ++ category ++ "/" ++ skill ++ "/" ++ rel

/-- The inner file loop of sync.ts lines 285-308 over the entries whose
path starts with the skill root: for each entry passing the shape and
blob tests, request its raw URL; an ok response contributes
`(rel, content)`, a non-ok response is dropped.  Returns the collected
files together with the list of raw URLs requested (the network calls
made). -/
def collectSkillFiles (raw : String → Option String)
    (base category skill : String) : List TreeItem →
    List (String × String) × List String
  | [] => ([], [])
  | f :: rest =>
    let acc := collectSkillFiles raw base category skill rest
    let rel := relWithin (skillRoot category skill) f.path
    if isSupportedRel rel && f.type == "blob" then
      let url := fileUrl base category skill rel
      match raw url with
      | some content => ((rel, content) :: acc.1, url :: acc.2)
      | none => (acc.1, url :: acc.2)
    else acc

/-- `allFiles.filter(f => f.path.startsWith(skillRoot))` (sync.ts lines
281-283). -/
def skillSourceFiles (allFiles : List TreeItem) (category skill : String) :
    List TreeItem :=
  allFiles.filter fun f => sStartsWith f.path (skillRoot category skill)

/-- The skill loop of sync.ts lines 266-322 over the surviving folder
names: fetch each skill's files; a skill with at least one fetched file
is pushed onto the collected list, a skill with zero fetched files is
omitted.  Also returns the raw URLs requested. -/
def assembleSkills (raw : String → Option String)
    (base category : String) (allFiles : List TreeItem) :
    List String → List CollectedSkill × List String
  | [] => ([], [])
  | name :: rest =>
    let here :=
      collectSkillFiles raw base category name (skillSourceFiles allFiles category name)
    let acc := assembleSkills raw base category allFiles rest
    if here.1.length > 0 then
      (⟨category, name, here.1⟩ :: acc.1, here.2 ++ acc.2)
    else (acc.1, here.2 ++ acc.2)

/-- One iteration of the category loop (sync.ts lines 222-330).  `tree`
is the tree-endpoint oracle; a `none` response models a non-ok status,
after which the category is skipped.  Returns the collected skills of
this category and every URL requested for it (the tree URL first). -/
def assembleCategory (tree : String → Option (List TreeItem))
    (raw : String → Option String) (owner repo category : String)
    (cc : CatConfig) : List CollectedSkill × List String :=
  let ref := refOrMain cc.ref
  let tUrl := treeUrl owner repo ref
  match tree tUrl with
  | none => ([], [tUrl])
  | some allFiles =>
    let names := (skillFolders allFiles category).filter (skillSurvives cc)
    let res := assembleSkills raw (rawBaseUrl owner repo ref) category allFiles names
    (res.1, tUrl :: res.2)

/-- `assembleFromRemote` (sync.ts lines 201-333): parse owner/repo from
the registry locator — on failure return `[]` immediately (no category
is processed, no URL is requested) — then process the enabled
categories in order, concatenating their collected skills.  The second
component is the full list of URLs requested. -/
def assembleFromRemote (tree : String → Option (List TreeItem))
    (raw : String → Option String)
    (cats : List (String × CatConfig)) (registry : String) :
    List CollectedSkill × List String :=
  match ghParseSync registry with
  | none => ([], [])
  | some (owner, repo) =>
    cats.foldr
      (fun c acc =>
        let here := assembleCategory tree raw owner repo c.1 c.2
        (here.1 ++ acc.1, here.2 ++ acc.2))
      ([], [])

/-! ### Target Writer (`writeToTargets`, sync.ts lines 335-384) -/

/-- `config.agents || SUPPORTED_AGENTS.map(a => a.id)` (sync.ts line
336).  In JS an array is truthy even when empty, so the fallback fires
only when the field is absent. -/
def agentsOrDefault : Option (List String) → List String
  | none => SUPPORTED_AGENTS.map (·.id)
  | some l => l

/-- `.replace(/\\/g, '/')`: normalize path separators. -/
def normSlashes (s : String) : String :=
  String.mk (s.data.map fun c => if c = '\\' then '/' else c)

/-- `.replace(/\/$/, '')`: drop a single trailing slash if present. -/
def stripTrailSlash (s : String) : String :=
  if sEndsWith s "/" then s.dropRight 1 else s

/-- The override test of sync.ts lines 363-369: some configured rule,
backslash-normalized, either equals the relative path exactly or, with
its trailing slash stripped and `/` appended, is a lead of it. -/
def isOverridden (overrides : List String) (rel : String) : Bool :=
  overrides.any fun o =>
    let op := normSlashes o
    rel == op || sStartsWith rel (stripTrailSlash op ++ "/")

/-- `path.join` for the writer's segments (all relative, non-empty,
with no `.`/`..` components, as produced by the tree listing). -/
def joinPath (a b : String) : String := a ++ "/" ++ b

/-- The sequence of `fs.outputFile(targetFilePath, content)` calls
performed by `writeToTargets` (sync.ts lines 339-383), in order: per
agent id, look it up in `SUPPORTED_AGENTS` (unknown ids are skipped)
and, its `path` being truthy, per collected skill and per file, build
`basePath/category/skill/name`; the path relative to the working
directory with separators normalized — for these relative, already
normalized paths `path.relative(process.cwd(), p)` is `p` itself — is
tested against the overrides, and matching files are skipped. -/
def writeList (agents : List String) (overrides : List String)
    (skills : List CollectedSkill) : List (String × String) :=
  agents.flatMap fun agentId =>
    match SUPPORTED_AGENTS.find? (fun a => a.id == agentId) with
    | none => []
    | some agentDef =>
      if agentDef.path.isEmpty then []
      else
        skills.flatMap fun skill =>
          let skillPath := joinPath (joinPath agentDef.path skill.category) skill.skill
          skill.files.filterMap fun fi =>
            let targetFilePath := joinPath skillPath fi.1
            let relativePath := normSlashes targetFilePath
            if isOverridden overrides relativePath then none
            else some (targetFilePath, fi.2)

/-- Apply a write sequence to a filesystem (path → content), later
writes overriding earlier ones (full-overwrite semantics). -/
def applyWrites (ws : List (String × String)) (fs : String → Option String) :
    String → Option String :=
  ws.foldl (fun f pc => fun p => if p = pc.1 then some pc.2 else f p) fs

/-- `writeToTargets(skills, config)` as a filesystem transformer:
`config.custom_overrides || []` and `config.agents || all ids`, then
the write sequence applied to the current filesystem.  Directory
creation (`ensureDir`) has no effect in the path-to-content model. -/
def writeToTargets (skills : List CollectedSkill) (cfg : SkillConfig)
    (fs : String → Option String) : String → Option String :=
  applyWrites
    (writeList (agentsOrDefault cfg.agents) ((cfg.custom_overrides).getD []) skills)
    fs

/-! ### The `run` entry point (sync.ts lines 35-70) -/

/-- Outcome of one `sync` invocation: the process exit status, whether
the reconcile/assemble/write stages ran, and the messages printed on the
abort path.  When `.skillsrc` is absent the command logs two lines and
returns; nothing in the program calls `process.exit` or assigns
`process.exitCode`, so the process exits with status 0 on every path
(the body is wrapped in try/catch, so no exception escapes either). -/
def runSync (configExists : Bool) : Nat × Bool × List String :=
  if configExists then (0, true, [])
  else
    (0, false,
      [ "❌ Error: .skillsrc not found in current directory.",
        "Run `agent-skills-standard init` first." ])

/-! ### Helper lemmas about the Target Writer -/

/-- The content of the last write to path `p` in a write sequence, if
any (later list elements are later writes). -/
def lastVal : List (String × String) → String → Option String
  | [], _ => none
  | pc :: ws, p =>
    match lastVal ws p with
    | some c => some c
    | none => if p = pc.1 then some pc.2 else none

theorem applyWrites_apply (ws : List (String × String))
    (fs : String → Option String) (p : String) :
    applyWrites ws fs p =
      (match lastVal ws p with
       | some c => some c
       | none => fs p) := by
  induction ws generalizing fs with
  | nil => rfl
  | cons pc ws ih =>
    show applyWrites ws (fun q => if q = pc.1 then some pc.2 else fs q) p = _
    rw [ih]
    cases h : lastVal ws p with
    | some c => simp [lastVal, h]
    | none =>
      simp only [lastVal, h]
      by_cases hp : p = pc.1 <;> simp [hp]

theorem lastVal_eq_none (ws : List (String × String)) (p : String)
    (h : ∀ pc ∈ ws, pc.1 ≠ p) : lastVal ws p = none := by
  induction ws with
  | nil => rfl
  | cons pc ws ih =>
    simp only [lastVal, ih fun x hx => h x (List.mem_cons_of_mem pc hx)]
    exact if_neg fun hp => h pc (List.mem_cons_self pc ws) hp.symm

theorem writeList_not_overridden (agents overrides : List String)
    (skills : List CollectedSkill) :
    ∀ pc ∈ writeList agents overrides skills,
      isOverridden overrides (normSlashes pc.1) = false := by
  intro pc hpc
  simp only [writeList, List.mem_flatMap] at hpc
  obtain ⟨agentId, -, hpc⟩ := hpc
  cases hfind : SUPPORTED_AGENTS.find? (fun a => a.id == agentId) with
  | none => rw [hfind] at hpc; simp at hpc
  | some ad =>
    rw [hfind] at hpc
    by_cases hp : ad.path.isEmpty
    · simp [hp] at hpc
    · simp only [hp, if_false, List.mem_flatMap, Bool.false_eq_true] at hpc
      obtain ⟨sk, -, hpc⟩ := hpc
      simp only [List.mem_filterMap] at hpc
      obtain ⟨fi, -, hfi⟩ := hpc
      by_cases hov : isOverridden overrides
          (normSlashes (joinPath (joinPath (joinPath ad.path sk.category) sk.skill) fi.1))
      · simp [hov] at hfi
      · simp only [hov, if_false, Option.some.injEq, Bool.false_eq_true] at hfi
        rw [← hfi]
        exact Bool.not_eq_true _ ▸ (by simpa using hov)

/-- C1: for every collected file whose target path, relative to the
working directory with separators normalized to forward slashes,
matches some configured override rule (exact match, or the rule with
its trailing slash stripped followed by a slash leading the path), the
writer skips the file: the filesystem content at that path after
`writeToTargets` equals its content before, whatever the fetched remote
content was. -/
theorem overridden_path_unchanged (skills : List CollectedSkill)
    (cfg : SkillConfig) (fs : String → Option String) (p : String)
    (h : isOverridden ((cfg.custom_overrides).getD []) (normSlashes p) = true) :
    writeToTargets skills cfg fs p = fs p := by
  unfold writeToTargets
  have hnone : lastVal
      (writeList (agentsOrDefault cfg.agents) ((cfg.custom_overrides).getD []) skills) p
      = none := by
    apply lastVal_eq_none
    intro pc hpc hp
    have := writeList_not_overridden (agentsOrDefault cfg.agents)
      ((cfg.custom_overrides).getD []) skills pc hpc
    rw [hp, h] at this
    exact Bool.true_eq_false ▸ this
  rw [applyWrites_apply, hnone]

/-- Witness for C1: a config that overrides the directory
`.claude/skills/kotlin`; syncing a collected skill whose file lands
under it leaves the locally edited content in place. -/
theorem overridden_path_unchanged_witness :
    writeToTargets [⟨"kotlin", "coroutines", [("SKILL.md", "remote content")]⟩]
        ⟨"https://github.com/NamNHCem/agent-skills-standard", some ["claude"],
          [("kotlin", ⟨true, none, none, none⟩)], some [".claude/skills/kotlin"]⟩
        (fun p => if p = ".claude/skills/kotlin/coroutines/SKILL.md"
                  then some "local edit" else none)
        ".claude/skills/kotlin/coroutines/SKILL.md" = some "local edit" := by
  rw [overridden_path_unchanged _ _ _ _ (by decide)]
  decide

/-- C8: writing is idempotent — for a fixed collected skill set, agents
list and override list, running the Target Writer twice in succession
produces the same filesystem as running it once (the second run's write
sequence is the same pure function of its inputs, so it re-writes
byte-identical content to the same paths and creates or removes
nothing). -/
theorem writeToTargets_idempotent (skills : List CollectedSkill)
    (cfg : SkillConfig) (fs : String → Option String) :
    writeToTargets skills cfg (writeToTargets skills cfg fs)
      = writeToTargets skills cfg fs := by
  funext p
  unfold writeToTargets
  cases h : lastVal
      (writeList (agentsOrDefault cfg.agents) ((cfg.custom_overrides).getD []) skills) p with
  | some c => simp only [applyWrites_apply, h]
  | none => simp only [applyWrites_apply, h]

/-- Counterexample to C3 as stated: with an explicitly empty `agents`
list (which is truthy in JS, so `config.agents || default` does *not*
fall back), the Target Writer writes to no tool at all — the collected
file never appears under `.cursor/skills`, contradicting the claim that
an empty agents list behaves like the full supported set. -/
theorem agents_empty_writes_nothing_cex :
    agentsOrDefault (some []) = [] ∧
    writeToTargets [⟨"kotlin", "coroutines", [("SKILL.md", "content")]⟩]
        ⟨"https://github.com/o/r", some [], [("kotlin", ⟨true, none, none, none⟩)], none⟩
        (fun _ => none) ".cursor/skills/kotlin/coroutines/SKILL.md" = none :=
  ⟨rfl, rfl⟩

/-- C3 (amended): the Target Writer behaves as if every known tool were
configured exactly when the `agents` field is *absent* from the
configuration (`config.agents || ...` falls back only on a missing
field); with an explicitly empty agents list it writes nothing. -/
theorem agents_absent_defaults_to_all (skills : List CollectedSkill)
    (cfg : SkillConfig) (fs : String → Option String) :
    (agentsOrDefault none = SUPPORTED_AGENTS.map (·.id))
    ∧ (cfg.agents = none →
        writeToTargets skills cfg fs
          = applyWrites
              (writeList (SUPPORTED_AGENTS.map (·.id))
                ((cfg.custom_overrides).getD []) skills) fs)
    ∧ (cfg.agents = some [] → writeToTargets skills cfg fs = fs) := by
  refine ⟨rfl, fun h => ?_, fun h => ?_⟩
  · unfold writeToTargets
    rw [h]
    rfl
  · unfold writeToTargets
    rw [h]
    rfl

/-- Witness for C3 (amended): with `agents = some []` the writer leaves
an empty filesystem empty. -/
theorem agents_absent_defaults_to_all_witness :
    writeToTargets [⟨"c", "s", [("SKILL.md", "x")]⟩]
        ⟨"r", some [], [], none⟩ (fun _ => none) = (fun _ => none) :=
  (agents_absent_defaults_to_all _ _ _).2.2 rfl

/-! ### Skill Assembler theorems -/

/-- The relative path of a tree entry within one skill folder. -/
def relOf (category skill : String) (f : TreeItem) : String :=
  relWithin (skillRoot category skill) f.path

/-- Spec-side eligibility of a tree entry for one skill (§4.3 step 5 of
the spec): its path starts with `skills/{category}/{skill}/`, its type
denotes a file (`"blob"`), and its path relative to the skill folder is
the manifest `SKILL.md` or lies under `references/`, `scripts/` or
`assets/`. -/
def specEligible (category skill : String) (f : TreeItem) : Prop :=
  sStartsWith f.path (skillRoot category skill) = true ∧ f.type = "blob" ∧
    (relOf category skill f = "SKILL.md" ∨
      sStartsWith (relOf category skill f) "references/" = true ∨
      sStartsWith (relOf category skill f) "scripts/" = true ∨
      sStartsWith (relOf category skill f) "assets/" = true)

instance (category skill : String) (f : TreeItem) :
    Decidable (specEligible category skill f) := by
  unfold specEligible
  exact inferInstance

/-- The tree entries of `allFiles` that are eligible for one skill. -/
def eligibleFiles (allFiles : List TreeItem) (category skill : String) :
    List TreeItem :=
  allFiles.filter fun f => decide (specEligible category skill f)

theorem guard_iff_spec (category skill : String) (f : TreeItem)
    (hs : sStartsWith f.path (skillRoot category skill) = true) :
    ((isSupportedRel (relOf category skill f) && (f.type == "blob")) = true)
      ↔ specEligible category skill f := by
  unfold specEligible isSupportedRel relOf relWithin
  simp only [Bool.and_eq_true, Bool.or_eq_true, beq_iff_eq, hs, true_and]
  tauto

/-- The inner file loop is exactly a map (of requested URLs) and a
filterMap (of fetch successes) over the eligible entries. -/
theorem collectSkillFiles_eq (raw : String → Option String)
    (base category skill : String) (allFiles : List TreeItem) :
    collectSkillFiles raw base category skill
        (skillSourceFiles allFiles category skill)
      = ((eligibleFiles allFiles category skill).filterMap
          (fun f => (raw (fileUrl base category skill (relOf category skill f))).map
            (fun c => (relOf category skill f, c))),
         (eligibleFiles allFiles category skill).map
          (fun f => fileUrl base category skill (relOf category skill f))) := by
  induction allFiles with
  | nil => rfl
  | cons f rest ih =>
    unfold skillSourceFiles eligibleFiles at ih ⊢
    rw [List.filter_cons, List.filter_cons]
    by_cases hs : sStartsWith f.path (skillRoot category skill) = true
    · rw [if_pos hs]
      by_cases hg : (isSupportedRel (relOf category skill f) && (f.type == "blob")) = true
      · have hel : decide (specEligible category skill f) = true :=
          decide_eq_true ((guard_iff_spec category skill f hs).mp hg)
        rw [if_pos hel]
        show (let acc := collectSkillFiles raw base category skill
                (List.filter (fun f => sStartsWith f.path (skillRoot category skill)) rest);
              let rel := relWithin (skillRoot category skill) f.path;
              if isSupportedRel rel && f.type == "blob" then
                let url := fileUrl base category skill rel
                match raw url with
                | some content => ((rel, content) :: acc.1, url :: acc.2)
                | none => (acc.1, url :: acc.2)
              else acc) = _
        rw [ih]
        simp only [relOf] at hg ⊢
        rw [if_pos hg]
        cases hr : raw (fileUrl base category skill (relWithin (skillRoot category skill) f.path)) with
        | some content => simp [List.filterMap_cons, List.map_cons, hr, relOf]
        | none => simp [List.filterMap_cons, List.map_cons, hr, relOf]
      · have hel : decide (specEligible category skill f) = false := by
          rw [decide_eq_false_iff_not]
          exact fun hsp => hg ((guard_iff_spec category skill f hs).mpr hsp)
        rw [if_neg (by rw [hel]; exact Bool.false_ne_true)]
        show (let acc := collectSkillFiles raw base category skill
                (List.filter (fun f => sStartsWith f.path (skillRoot category skill)) rest);
              let rel := relWithin (skillRoot category skill) f.path;
              if isSupportedRel rel && f.type == "blob" then
                let url := fileUrl base category skill rel
                match raw url with
                | some content => ((rel, content) :: acc.1, url :: acc.2)
                | none => (acc.1, url :: acc.2)
              else acc) = _
        simp only [relOf] at hg
        rw [if_neg hg]
        exact ih
    · have hel : decide (specEligible category skill f) = false := by
        rw [decide_eq_false_iff_not]
        exact fun hsp => hs hsp.1
      rw [if_neg hs, if_neg (by rw [hel]; exact Bool.false_ne_true)]
      exact ih

theorem assembleSkills_fst (raw : String → Option String)
    (base category : String) (allFiles : List TreeItem)
    (names : List String) :
    (assembleSkills raw base category allFiles names).1
      = names.filterMap (fun n =>
          let files := (collectSkillFiles raw base category n
            (skillSourceFiles allFiles category n)).1
          if files.length > 0 then some (CollectedSkill.mk category n files)
          else none) := by
  induction names with
  | nil => rfl
  | cons n rest ih =>
    show ((if _ then _ else _ : List CollectedSkill × List String)).1 = _
    rw [List.filterMap_cons]
    by_cases h : (collectSkillFiles raw base category n
        (skillSourceFiles allFiles category n)).1.length > 0
    · simp only [assembleSkills, if_pos h, ih]
    · simp only [assembleSkills, if_neg h, ih]

theorem assembleSkills_snd (raw : String → Option String)
    (base category : String) (allFiles : List TreeItem)
    (names : List String) :
    (assembleSkills raw base category allFiles names).2
      = names.flatMap (fun n =>
          (collectSkillFiles raw base category n
            (skillSourceFiles allFiles category n)).2) := by
  induction names with
  | nil => rfl
  | cons n rest ih =>
    rw [List.flatMap_cons]
    by_cases h : (collectSkillFiles raw base category n
        (skillSourceFiles allFiles category n)).1.length > 0
    · simp only [assembleSkills, if_pos h, ih]
    · simp only [assembleSkills, if_neg h, ih]

theorem assembleCategory_fst_mem (tree : String → Option (List TreeItem))
    (raw : String → Option String) (owner repo category : String)
    (cc : CatConfig) :
    ∀ cs ∈ (assembleCategory tree raw owner repo category cc).1,
      skillSurvives cc cs.skill = true ∧ cs.category = category := by
  intro cs hcs
  simp only [assembleCategory] at hcs
  cases htree : tree (treeUrl owner repo (refOrMain cc.ref)) with
  | none => rw [htree] at hcs; cases hcs
  | some allFiles =>
    rw [htree] at hcs
    simp only at hcs
    rw [assembleSkills_fst] at hcs
    obtain ⟨n, hn, hf⟩ := List.mem_filterMap.mp hcs
    have hn' := List.mem_filter.mp hn
    by_cases h : (collectSkillFiles raw (rawBaseUrl owner repo (refOrMain cc.ref))
        category n (skillSourceFiles allFiles category n)).1.length > 0
    · rw [if_pos h] at hf
      cases hf
      exact ⟨hn'.2, rfl⟩
    · rw [if_neg h] at hf
      cases hf

theorem assembleCategory_snd_mem (tree : String → Option (List TreeItem))
    (raw : String → Option String) (owner repo category : String)
    (cc : CatConfig) :
    ∀ url ∈ (assembleCategory tree raw owner repo category cc).2,
      url = treeUrl owner repo (refOrMain cc.ref) ∨
        ∃ name rel, skillSurvives cc name = true ∧
          url = fileUrl (rawBaseUrl owner repo (refOrMain cc.ref)) category name rel := by
  intro url hurl
  simp only [assembleCategory] at hurl
  cases htree : tree (treeUrl owner repo (refOrMain cc.ref)) with
  | none =>
    rw [htree] at hurl
    exact Or.inl (List.mem_singleton.mp hurl)
  | some allFiles =>
    rw [htree] at hurl
    simp only at hurl
    rcases List.mem_cons.mp hurl with h | h
    · exact Or.inl h
    · rw [assembleSkills_snd] at h
      obtain ⟨n, hn, hurl'⟩ := List.mem_flatMap.mp h
      have hn' := List.mem_filter.mp hn
      rw [collectSkillFiles_eq] at hurl'
      obtain ⟨f, -, hf⟩ := List.mem_map.mp hurl'
      exact Or.inr ⟨n, relOf category n f, hn'.2, hf.symm⟩

/-- C2: the assembler applies `include` first and `exclude` second —
a name absent from a present include list is skipped regardless of
exclude, and a name present in the exclude list is skipped even if the
include list names it; with `include = ["a","b"]` and
`exclude = ["b"]`, every skill the category assembles is `"a"` and
every URL requested is the tree listing or a raw-file URL of skill
`"a"`. -/
theorem include_exclude_precedence :
    (∀ (cc : CatConfig) (l : List String) (name : String),
        cc.incl = some l → name ∉ l → skillSurvives cc name = false)
    ∧ (∀ (cc : CatConfig) (l : List String) (name : String),
        cc.excl = some l → name ∈ l → skillSurvives cc name = false)
    ∧ (∀ (tree : String → Option (List TreeItem)) (raw : String → Option String)
        (owner repo category : String) (cc : CatConfig),
        cc.incl = some ["a", "b"] → cc.excl = some ["b"] →
        (∀ cs ∈ (assembleCategory tree raw owner repo category cc).1,
            cs.skill = "a")
        ∧ (∀ url ∈ (assembleCategory tree raw owner repo category cc).2,
            url = treeUrl owner repo (refOrMain cc.ref) ∨
            ∃ rel, url = fileUrl (rawBaseUrl owner repo (refOrMain cc.ref))
              category "a" rel)) := by
  have hsurv : ∀ (cc : CatConfig), cc.incl = some ["a", "b"] →
      cc.excl = some ["b"] → ∀ name, skillSurvives cc name = true → name = "a" := by
    intro cc hincl hexcl name h
    simp only [skillSurvives, hincl, hexcl] at h
    by_cases ha : name = "a"
    · exact ha
    · exfalso
      by_cases hb : name = "b"
      · subst hb
        simp at h
      · have ca : (name == "a") = false := by simp [ha]
        have cb : (name == "b") = false := by simp [hb]
        simp [List.contains, List.elem, ca, cb] at h
  refine ⟨?_, ?_, ?_⟩
  · intro cc l name hincl hnotin
    simp only [skillSurvives, hincl]
    rw [if_pos]
    simp [List.elem_iff, hnotin]
  · intro cc l name hexcl hin
    simp only [skillSurvives, hexcl]
    by_cases h1 : (match cc.incl with
        | some l => !l.contains name
        | none => false) = true
    · rw [if_pos h1]
    · rw [if_neg h1, if_pos]
      simp [List.elem_iff, hin]
  · intro tree raw owner repo category cc hincl hexcl
    constructor
    · intro cs hcs
      have h := assembleCategory_fst_mem tree raw owner repo category cc cs hcs
      exact hsurv cc hincl hexcl cs.skill h.1
    · intro url hurl
      rcases assembleCategory_snd_mem tree raw owner repo category cc url hurl with
        h | ⟨name, rel, hsv, hu⟩
      · exact Or.inl h
      · exact Or.inr ⟨rel, by rw [hu, hsurv cc hincl hexcl name hsv]⟩

/-- Witness for C2: with `include = ["a","b"]`, `exclude = ["b"]`, the
skill `"c"` is dropped by the include filter and `"b"` by the exclude
filter. -/
theorem include_exclude_precedence_witness :
    skillSurvives ⟨true, none, some ["a", "b"], some ["b"]⟩ "c" = false
    ∧ skillSurvives ⟨true, none, some ["a", "b"], some ["b"]⟩ "b" = false :=
  ⟨include_exclude_precedence.1 ⟨true, none, some ["a", "b"], some ["b"]⟩
      ["a", "b"] "c" rfl (by decide),
    include_exclude_precedence.2.1 ⟨true, none, some ["a", "b"], some ["b"]⟩
      ["b"] "b" rfl (by decide)⟩

/-- C5: for one skill, the raw URLs the assembler requests are exactly
those of the tree entries whose path starts with
`skills/{category}/{skill}/`, whose type is `"blob"`, and whose path
relative to the skill folder equals `SKILL.md` or begins with
`references/`, `scripts/` or `assets/` (the `specEligible` entries) —
and the collected files are the fetch successes among exactly those
entries, so every other entry under the skill folder is excluded. -/
theorem eligible_entries_exact (raw : String → Option String)
    (base category skill : String) (allFiles : List TreeItem) :
    (collectSkillFiles raw base category skill
        (skillSourceFiles allFiles category skill)).2
      = (eligibleFiles allFiles category skill).map
          (fun f => fileUrl base category skill (relOf category skill f))
    ∧ (collectSkillFiles raw base category skill
        (skillSourceFiles allFiles category skill)).1
      = (eligibleFiles allFiles category skill).filterMap
          (fun f => (raw (fileUrl base category skill (relOf category skill f))).map
            (fun c => (relOf category skill f, c))) := by
  rw [collectSkillFiles_eq]
  exact ⟨rfl, rfl⟩

/-- C6: a skill whose file fetches partly fail is still collected with
exactly the successfully fetched files, as long as one fetch succeeded;
a skill with zero successfully fetched files is omitted from the
collected result entirely. -/
theorem fetch_drop_tolerance (raw : String → Option String)
    (base category : String) (allFiles : List TreeItem)
    (names : List String) (name : String) (hmem : name ∈ names) :
    ((collectSkillFiles raw base category name
        (skillSourceFiles allFiles category name)).1 ≠ [] →
      CollectedSkill.mk category name
          (collectSkillFiles raw base category name
            (skillSourceFiles allFiles category name)).1
        ∈ (assembleSkills raw base category allFiles names).1)
    ∧ ((collectSkillFiles raw base category name
        (skillSourceFiles allFiles category name)).1 = [] →
      ∀ cs ∈ (assembleSkills raw base category allFiles names).1,
        cs.skill ≠ name)
    ∧ (collectSkillFiles raw base category name
        (skillSourceFiles allFiles category name)).1
      = (eligibleFiles allFiles category name).filterMap
          (fun f => (raw (fileUrl base category name (relOf category name f))).map
            (fun c => (relOf category name f, c))) := by
  refine ⟨?_, ?_, by rw [collectSkillFiles_eq]⟩
  · intro hne
    rw [assembleSkills_fst]
    apply List.mem_filterMap.mpr
    refine ⟨name, hmem, ?_⟩
    rw [if_pos (List.length_pos.mpr hne)]
  · intro hempty cs hcs hskill
    rw [assembleSkills_fst] at hcs
    obtain ⟨n, -, hf⟩ := List.mem_filterMap.mp hcs
    by_cases h : (collectSkillFiles raw base category n
        (skillSourceFiles allFiles category n)).1.length > 0
    · rw [if_pos h] at hf
      cases hf
      have hn : n = name := by simpa using hskill
      rw [hn, hempty] at h
      simp at h
    · rw [if_neg h] at hf
      cases hf

/-- Witness for C6, the spec's 3-file scenario: with one of three
eligible fetches failing the skill is collected with the other two
files; with all three failing it is absent from the collected list. -/
theorem fetch_drop_tolerance_witness :
    CollectedSkill.mk "kotlin" "flow"
        [("SKILL.md", "content"), ("references/R.md", "content")]
      ∈ (assembleSkills
          (fun u => if u = fileUrl (rawBaseUrl "o" "r" "main") "kotlin" "flow" "scripts/s.sh"
                    then none else some "content")
          (rawBaseUrl "o" "r" "main") "kotlin"
          [⟨"skills/kotlin/flow/SKILL.md", "blob"⟩,
            ⟨"skills/kotlin/flow/references/R.md", "blob"⟩,
            ⟨"skills/kotlin/flow/scripts/s.sh", "blob"⟩] ["flow"]).1
    ∧ CollectedSkill.mk "kotlin" "flow" []
      ∉ (assembleSkills (fun _ => none) (rawBaseUrl "o" "r" "main") "kotlin"
          [⟨"skills/kotlin/flow/SKILL.md", "blob"⟩,
            ⟨"skills/kotlin/flow/references/R.md", "blob"⟩,
            ⟨"skills/kotlin/flow/scripts/s.sh", "blob"⟩] ["flow"]).1 := by
  constructor
  · exact (fetch_drop_tolerance
      (fun u => if u = fileUrl (rawBaseUrl "o" "r" "main") "kotlin" "flow" "scripts/s.sh"
                then none else some "content")
      (rawBaseUrl "o" "r" "main") "kotlin"
      [⟨"skills/kotlin/flow/SKILL.md", "blob"⟩,
        ⟨"skills/kotlin/flow/references/R.md", "blob"⟩,
        ⟨"skills/kotlin/flow/scripts/s.sh", "blob"⟩]
      ["flow"] "flow" (by decide)).1 (by decide)
  · intro hm
    exact (fetch_drop_tolerance (fun _ => none) (rawBaseUrl "o" "r" "main") "kotlin"
      [⟨"skills/kotlin/flow/SKILL.md", "blob"⟩,
        ⟨"skills/kotlin/flow/references/R.md", "blob"⟩,
        ⟨"skills/kotlin/flow/scripts/s.sh", "blob"⟩]
      ["flow"] "flow" (by decide)).2.1 (by decide)
      (CollectedSkill.mk "kotlin" "flow" []) hm rfl

/-- C7: a registry locator on which the supported
`github.com/{owner}/{repo}` pattern does not match makes the assembler
return zero collected skills with zero network requests, whatever the
enabled categories. -/
theorem unsupported_registry_fast_fail
    (tree : String → Option (List TreeItem)) (raw : String → Option String)
    (cats : List (String × CatConfig)) (registry : String)
    (h : ghParseSync registry = none) :
    assembleFromRemote tree raw cats registry = ([], []) := by
  unfold assembleFromRemote
  rw [h]

/-- Witness for C7: a `file://` locator yields no skills and no
requests. -/
theorem unsupported_registry_fast_fail_witness :
    assembleFromRemote (fun _ => none) (fun _ => none)
        [("kotlin", ⟨true, none, none, none⟩)] "file:///tmp/skills" = ([], []) :=
  unsupported_registry_fast_fail _ _ _ _ (by decide)

/-! ### Version Reconciler theorems -/

theorem keys_nodup_mem_unique {α : Type} {l : List (String × α)}
    (h : (l.map Prod.fst).Nodup) {k : String} {a b : α}
    (ha : (k, a) ∈ l) (hb : (k, b) ∈ l) : a = b := by
  induction l with
  | nil => cases ha
  | cons p l ih =>
    rw [List.map_cons, List.nodup_cons] at h
    rcases List.mem_cons.mp ha with ha' | ha' <;>
      rcases List.mem_cons.mp hb with hb' | hb'
    · simpa using ha'.trans hb'.symm
    · exfalso
      apply h.1
      rw [show p.1 = k from (congrArg Prod.fst ha').symm]
      exact List.mem_map.mpr ⟨(k, b), hb', rfl⟩
    · exfalso
      apply h.1
      rw [show p.1 = k from (congrArg Prod.fst hb').symm]
      exact List.mem_map.mpr ⟨(k, a), ha', rfl⟩
    · exact ih h.2 ha' hb'

/-- Characterization of the candidate list: an update is recorded
exactly for a skills entry that is enabled, has remote metadata with
truthy `version` and `tag_prefix`, and whose effective ref differs from
the latest tag. -/
theorem mem_computeUpdates_iff (skills : List (String × CatConfig))
    (meta : String → Option RemoteCat) (u : Update) :
    u ∈ computeUpdates skills meta ↔
      ∃ p ∈ skills, p.2.enabled = true ∧ ∃ rc, meta p.1 = some rc ∧
        strTruthy rc.version = true ∧ strTruthy rc.tagPre = true ∧
        refOrMain p.2.ref ≠ latestTag rc ∧
        u = Update.mk p.1 (refOrMain p.2.ref) (latestTag rc) := by
  simp only [computeUpdates, List.mem_filterMap]
  constructor
  · rintro ⟨p, hp, hf⟩
    refine ⟨p, hp, ?_⟩
    by_cases he : p.2.enabled = true
    · rw [if_neg (by simp [he])] at hf
      cases hm : meta p.1 with
      | none => rw [hm] at hf; cases hf
      | some rc =>
        rw [hm] at hf
        dsimp only at hf
        by_cases hv : strTruthy rc.version = true
        · by_cases ht : strTruthy rc.tagPre = true
          · rw [if_neg (by simp [hv, ht])] at hf
            by_cases hne : refOrMain p.2.ref ≠ latestTag rc
            · rw [if_pos hne] at hf
              cases hf
              exact ⟨he, rc, rfl, hv, ht, hne, rfl⟩
            · rw [if_neg hne] at hf; cases hf
          · rw [if_pos (by simp [ht])] at hf; cases hf
        · rw [if_pos (by simp [hv])] at hf; cases hf
    · rw [if_pos (by simp [he])] at hf; cases hf
  · rintro ⟨p, hp, he, rc, hm, hv, ht, hne, rfl⟩
    refine ⟨p, hp, ?_⟩
    rw [if_neg (by simp [he]), hm]
    dsimp only
    rw [if_neg (by simp [hv, ht]), if_pos hne]

/-- C4: for every enabled category whose remote metadata supplies both
a (truthy) `version` and `tag_prefix`, the reconciler records the
update candidate `{category, currentRef, tag_prefix ++ version}` iff
the category's effective ref (defaulting to `"main"` when unset)
differs from `tag_prefix ++ version`; a category whose remote metadata
lacks either field is never proposed, whatever its ref; and when the
user declines the single confirmation, the configuration — every
category's ref included — is returned unchanged, and sync proceeds
with it. -/
theorem checkForUpdates_gating :
    (∀ (skills : List (String × CatConfig)) (meta : String → Option RemoteCat)
        (cat : String) (cc : CatConfig) (rc : RemoteCat),
        (skills.map Prod.fst).Nodup → (cat, cc) ∈ skills → cc.enabled = true →
        meta cat = some rc → strTruthy rc.version = true → strTruthy rc.tagPre = true →
        (Update.mk cat (refOrMain cc.ref) (latestTag rc) ∈ computeUpdates skills meta
          ↔ refOrMain cc.ref ≠ latestTag rc))
    ∧ (∀ (skills : List (String × CatConfig)) (meta : String → Option RemoteCat)
        (cat : String),
        (∀ rc, meta cat = some rc →
          strTruthy rc.version = false ∨ strTruthy rc.tagPre = false) →
        ∀ u ∈ computeUpdates skills meta, u.category ≠ cat)
    ∧ (∀ (cfg : SkillConfig) (meta : Option (String → Option RemoteCat)),
        checkForUpdates cfg meta false = cfg) := by
  refine ⟨?_, ?_, ?_⟩
  · intro skills meta cat cc rc hnd hmem hen hrc hv ht
    constructor
    · intro hu
      obtain ⟨p, hp, -, rc', hm', -, -, hne', hequ⟩ :=
        (mem_computeUpdates_iff skills meta _).mp hu
      have hcat : cat = p.1 := congrArg Update.category hequ
      have hrefs : refOrMain cc.ref = refOrMain p.2.ref :=
        congrArg Update.from_ hequ
      rw [← hcat, hrc] at hm'
      cases hm'
      rw [hrefs]
      exact hne'
    · intro hne
      exact (mem_computeUpdates_iff skills meta _).mpr
        ⟨(cat, cc), hmem, hen, rc, hrc, hv, ht, hne, rfl⟩
  · intro skills meta cat hlacks u hu hcat
    obtain ⟨p, hp, -, rc', hm', hv', ht', -, hequ⟩ :=
      (mem_computeUpdates_iff skills meta _).mp hu
    rw [hequ] at hcat
    rw [show p.1 = cat from hcat] at hm'
    rcases hlacks rc' hm' with h | h
    · rw [hv'] at h; cases h
    · rw [ht'] at h; cases h
  · intro cfg meta
    unfold checkForUpdates
    cases ghParseUpd cfg.registry with
    | none => rfl
    | some pr =>
      cases meta with
      | none => rfl
      | some m =>
        dsimp only
        split <;> rfl

/-- Witness for C4, the spec's own example: remote metadata
`{cat: {version: "2.0.0", tag_prefix: "v"}}` against local ref
`"v1.0.0"` yields the candidate `{cat, v1.0.0, v2.0.0}`, and declining
leaves the configuration unchanged. -/
theorem checkForUpdates_gating_witness :
    Update.mk "cat" "v1.0.0" "v2.0.0" ∈ computeUpdates
        [("cat", ⟨true, some "v1.0.0", none, none⟩)]
        (fun c => if c = "cat" then some ⟨some "2.0.0", some "v"⟩ else none)
    ∧ checkForUpdates
        ⟨"https://github.com/o/r", none, [("cat", ⟨true, some "v1.0.0", none, none⟩)], none⟩
        (some (fun c => if c = "cat" then some ⟨some "2.0.0", some "v"⟩ else none)) false
      = ⟨"https://github.com/o/r", none, [("cat", ⟨true, some "v1.0.0", none, none⟩)], none⟩ := by
  constructor
  · exact (checkForUpdates_gating.1
      [("cat", ⟨true, some "v1.0.0", none, none⟩)]
      (fun c => if c = "cat" then some ⟨some "2.0.0", some "v"⟩ else none)
      "cat" ⟨true, some "v1.0.0", none, none⟩ ⟨some "2.0.0", some "v"⟩
      (by decide) (by decide) rfl (by decide) (by decide) (by decide)).mpr (by decide)
  · exact checkForUpdates_gating.2.2 _ _

/-! ### Run-abort theorems (C9) -/

/-- Counterexample to C9 as stated: invoking `sync` without a
`.skillsrc` aborts before the pipeline runs, but the process exit
status is 0 — not non-zero as claimed — since the command merely
returns after logging and nothing ever calls `process.exit` or sets
`process.exitCode`. -/
theorem missing_config_exit_status_cex :
    (runSync false).1 = 0 ∧ (runSync false).2.1 = false := by
  exact ⟨rfl, rfl⟩

/-- C9 (amended): with no configuration file present, the run aborts
before any reconciliation, fetching or writing and prints the error
plus the instruction to run `init` first; the process exits with
status zero — as it does on every other path, including partial fetch
failures. -/
theorem missing_config_aborts :
    (runSync false).2.1 = false
    ∧ (runSync false).2.2
      = [ "❌ Error: .skillsrc not found in current directory.",
          "Run `agent-skills-standard init` first." ]
    ∧ ∀ b, (runSync b).1 = 0 := by
  refine ⟨rfl, rfl, ?_⟩
  intro b
  cases b <;> rfl

/-! ### Locator-parse agreement (C10) -/

theorem scanFrom_cons_none (f : List Char → Option (String × String))
    (c : Char) (cs : List Char) (h : f (c :: cs) = none) :
    scanFrom f (c :: cs) = scanFrom f cs := by
  simp [scanFrom, h]

theorem matchAt_none_of_head (c : Char) (cs : List Char)
    (hc : ¬ c.toLower = 'g') :
    matchSyncAt (c :: cs) = none ∧ matchUpdAt (c :: cs) = none := by
  have hst : stripCi "github.com/".data (c :: cs) = none := by
    show stripCi ('g' :: "ithub.com/".data) (c :: cs) = none
    simp only [stripCi]
    exact if_neg fun h => hc (h.trans (by decide))
  constructor
  · unfold matchSyncAt
    rw [hst]
  · unfold matchUpdAt
    rw [hst]

theorem stripCi_self (p rest : List Char) : stripCi p (p ++ rest) = some rest := by
  induction p with
  | nil => rfl
  | cons a t ih => simp [stripCi, ih]

theorem takeWhile_append_sat (p : Char → Bool) (l : List Char) (x : Char)
    (xs : List Char) (hl : ∀ c ∈ l, p c = true) (hx : p x = false) :
    (l ++ x :: xs).takeWhile p = l := by
  induction l with
  | nil => simp [List.takeWhile_cons, hx]
  | cons a t ih =>
    simp [List.takeWhile_cons, hl a (List.mem_cons_self a t),
      ih fun c hc => hl c (List.mem_cons_of_mem a hc)]

theorem dropWhile_append_sat (p : Char → Bool) (l : List Char) (x : Char)
    (xs : List Char) (hl : ∀ c ∈ l, p c = true) (hx : p x = false) :
    (l ++ x :: xs).dropWhile p = x :: xs := by
  induction l with
  | nil => simp [List.dropWhile_cons, hx]
  | cons a t ih =>
    simp [List.dropWhile_cons, hl a (List.mem_cons_self a t),
      ih fun c hc => hl c (List.mem_cons_of_mem a hc)]

theorem takeWhile_of_all (p : Char → Bool) (l : List Char)
    (h : ∀ c ∈ l, p c = true) : l.takeWhile p = l := by
  induction l with
  | nil => rfl
  | cons a t ih =>
    simp [List.takeWhile_cons, h a (List.mem_cons_self a t),
      ih fun c hc => h c (List.mem_cons_of_mem a hc)]

theorem matchUpdAt_isSome_imp (cs : List Char)
    (h : (matchUpdAt cs).isSome = true) : (matchSyncAt cs).isSome = true := by
  unfold matchUpdAt at h
  unfold matchSyncAt
  revert h
  cases stripCi "github.com/".data cs with
  | none => intro h; simp at h
  | some rest =>
    dsimp only
    intro h
    by_cases ho : (rest.takeWhile fun c => c ≠ '/').isEmpty
    · rw [if_pos ho] at h; simp at h
    · rw [if_neg ho] at h ⊢
      revert h
      cases rest.dropWhile fun c => c ≠ '/' with
      | nil => intro h; simp at h
      | cons x rest2 =>
        dsimp only
        intro h
        by_cases hr : (rest2.takeWhile fun c => c ≠ '/' && c ≠ '.').isEmpty
        · rw [if_pos hr] at h; simp at h
        · cases rest2 with
          | nil => simp [List.takeWhile] at hr
          | cons a t =>
            by_cases hp : (decide (a ≠ '/') && decide (a ≠ '.')) = true
            · have hp' : a ≠ '/' ∧ a ≠ '.' := by simpa using hp
              have ha : decide (a ≠ '/') = true := decide_eq_true hp'.1
              rw [if_neg (by simp [List.takeWhile_cons, ha, hp'.1])]
              simp
            · exfalso
              apply hr
              simp only [List.takeWhile_cons]
              rw [if_neg hp]
              rfl

theorem scanFrom_isSome_imp (cs : List Char)
    (h : (scanFrom matchUpdAt cs).isSome = true) :
    (scanFrom matchSyncAt cs).isSome = true := by
  induction cs with
  | nil => simp [scanFrom] at h
  | cons c cs ih =>
    cases hm : matchSyncAt (c :: cs) with
    | some r => simp [scanFrom, hm]
    | none =>
      simp only [scanFrom, hm]
      apply ih
      cases hu : matchUpdAt (c :: cs) with
      | some r =>
        exact absurd (matchUpdAt_isSome_imp (c :: cs) (by simp [hu])) (by simp [hm])
      | none => simpa [scanFrom, hu] using h

/-- Counterexample to C10 as stated: on the locator
`https://github.com/NamNHCem/agent-skills-standard.git` both parses
succeed, but the assembler extracts repo `agent-skills-standard.git`
while the reconciler's pattern stops the repo at the dot and extracts
`agent-skills-standard` — the two components address different
repositories. -/
theorem locator_parses_differ_cex :
    ghParseSync "https://github.com/NamNHCem/agent-skills-standard.git"
      = some ("NamNHCem", "agent-skills-standard.git")
    ∧ ghParseUpd "https://github.com/NamNHCem/agent-skills-standard.git"
      = some ("NamNHCem", "agent-skills-standard")
    ∧ ("agent-skills-standard.git" : String) ≠ "agent-skills-standard" := by
  refine ⟨by decide, by decide, by decide⟩

/-- C10 (amended): whenever the reconciler's locator parse succeeds the
assembler's parse succeeds too; and on canonical locators
`https://github.com/{owner}/{repo}` — owner and repo non-empty and
slash-free, repo dot-free — both extract the identical (owner, repo)
pair.  (In general the two parses disagree: the reconciler stops the
repo capture at the first dot, see the counterexample.) -/
theorem locator_parses_agree :
    (∀ s : String, (ghParseUpd s).isSome = true → (ghParseSync s).isSome = true)
    ∧ (∀ o r : List Char, o ≠ [] → r ≠ [] →
        (∀ c ∈ o, c ≠ '/') → (∀ c ∈ r, c ≠ '/' ∧ c ≠ '.') →
        ghParseSync (String.mk ("https://github.com/".data ++ (o ++ '/' :: r)))
          = some (String.mk o, String.mk r)
        ∧ ghParseUpd (String.mk ("https://github.com/".data ++ (o ++ '/' :: r)))
          = some (String.mk o, String.mk r)) := by
  constructor
  · intro s h
    exact scanFrom_isSome_imp s.data h
  · intro o r hoNe hrNe ho hr
    have hoEmp : o.isEmpty = false := by
      cases o with
      | nil => exact absurd rfl hoNe
      | cons a t => rfl
    have hrEmp : r.isEmpty = false := by
      cases r with
      | nil => exact absurd rfl hrNe
      | cons a t => rfl
    have hsync : matchSyncAt ("github.com/".data ++ (o ++ '/' :: r))
        = some (String.mk o, String.mk r) := by
      unfold matchSyncAt
      rw [stripCi_self]
      dsimp only
      rw [takeWhile_append_sat _ o '/' r
        (fun c hc => decide_eq_true (ho c hc)) (by decide)]
      rw [if_neg (by simp [hoEmp])]
      rw [dropWhile_append_sat _ o '/' r
        (fun c hc => decide_eq_true (ho c hc)) (by decide)]
      dsimp only
      rw [takeWhile_of_all _ r (fun c hc => decide_eq_true (hr c hc).1)]
      rw [if_neg (by simp [hrEmp])]
    have hupd : matchUpdAt ("github.com/".data ++ (o ++ '/' :: r))
        = some (String.mk o, String.mk r) := by
      unfold matchUpdAt
      rw [stripCi_self]
      dsimp only
      rw [takeWhile_append_sat _ o '/' r
        (fun c hc => decide_eq_true (ho c hc)) (by decide)]
      rw [if_neg (by simp [hoEmp])]
      rw [dropWhile_append_sat _ o '/' r
        (fun c hc => decide_eq_true (ho c hc)) (by decide)]
      dsimp only
      rw [takeWhile_of_all _ r (fun c hc => by
        simp [(hr c hc).1, (hr c hc).2])]
      rw [if_neg (by simp [hrEmp])]
    constructor
    · show scanFrom matchSyncAt ("https://github.com/".data ++ (o ++ '/' :: r)) = _
      rw [show ("https://github.com/".data ++ (o ++ '/' :: r))
        = 'h' :: 't' :: 't' :: 'p' :: 's' :: ':' :: '/' :: '/' ::
            ("github.com/".data ++ (o ++ '/' :: r)) from rfl]
      rw [scanFrom_cons_none _ _ _ (matchAt_none_of_head 'h' _ (by decide)).1]
      rw [scanFrom_cons_none _ _ _ (matchAt_none_of_head 't' _ (by decide)).1]
      rw [scanFrom_cons_none _ _ _ (matchAt_none_of_head 't' _ (by decide)).1]
      rw [scanFrom_cons_none _ _ _ (matchAt_none_of_head 'p' _ (by decide)).1]
      rw [scanFrom_cons_none _ _ _ (matchAt_none_of_head 's' _ (by decide)).1]
      rw [scanFrom_cons_none _ _ _ (matchAt_none_of_head ':' _ (by decide)).1]
      rw [scanFrom_cons_none _ _ _ (matchAt_none_of_head '/' _ (by decide)).1]
      rw [scanFrom_cons_none _ _ _ (matchAt_none_of_head '/' _ (by decide)).1]
      rw [show ("github.com/".data ++ (o ++ '/' :: r))
        = 'g' :: ("ithub.com/".data ++ (o ++ '/' :: r)) from rfl]
      rw [scanFrom]
      rw [show matchSyncAt ('g' :: ("ithub.com/".data ++ (o ++ '/' :: r)))
        = some (String.mk o, String.mk r) from hsync]
    · show scanFrom matchUpdAt ("https://github.com/".data ++ (o ++ '/' :: r)) = _
      rw [show ("https://github.com/".data ++ (o ++ '/' :: r))
        = 'h' :: 't' :: 't' :: 'p' :: 's' :: ':' :: '/' :: '/' ::
            ("github.com/".data ++ (o ++ '/' :: r)) from rfl]
      rw [scanFrom_cons_none _ _ _ (matchAt_none_of_head 'h' _ (by decide)).2]
      rw [scanFrom_cons_none _ _ _ (matchAt_none_of_head 't' _ (by decide)).2]
      rw [scanFrom_cons_none _ _ _ (matchAt_none_of_head 't' _ (by decide)).2]
      rw [scanFrom_cons_none _ _ _ (matchAt_none_of_head 'p' _ (by decide)).2]
      rw [scanFrom_cons_none _ _ _ (matchAt_none_of_head 's' _ (by decide)).2]
      rw [scanFrom_cons_none _ _ _ (matchAt_none_of_head ':' _ (by decide)).2]
      rw [scanFrom_cons_none _ _ _ (matchAt_none_of_head '/' _ (by decide)).2]
      rw [scanFrom_cons_none _ _ _ (matchAt_none_of_head '/' _ (by decide)).2]
      rw [show ("github.com/".data ++ (o ++ '/' :: r))
        = 'g' :: ("ithub.com/".data ++ (o ++ '/' :: r)) from rfl]
      rw [scanFrom]
      rw [show matchUpdAt ('g' :: ("ithub.com/".data ++ (o ++ '/' :: r)))
        = some (String.mk o, String.mk r) from hupd]

/-- Witness for C10 (amended): on the canonical locator
`https://github.com/a/b` both parses extract `(a, b)`. -/
theorem locator_parses_agree_witness :
    ghParseSync (String.mk ("https://github.com/".data ++ (['a'] ++ '/' :: ['b'])))
      = some (String.mk ['a'], String.mk ['b'])
    ∧ ghParseUpd (String.mk ("https://github.com/".data ++ (['a'] ++ '/' :: ['b'])))
      = some (String.mk ['a'], String.mk ['b']) :=
  locator_parses_agree.2 ['a'] ['b'] (by decide) (by decide) (by decide) (by decide)

end AgentSkills
